import Mathlib

/-
Shallow embedding of `generate.py` from memetb/lexical-sort.

The three generators of the source file are modelled as Lean functions over
an explicit word list (the module-level `valid_words` of the source) and an
explicit oracle of pseudo-random draws.  Python strings are lists of
characters, Python ints are `Int`/`Nat`, Python floats (only used for the
probability draw) are `Rat`, and Python exceptions are the error side of
`Except`.
-/

namespace LexSort

/-- Python strings are modelled as lists of characters. -/
abbrev Word := List Char

/-- Explicit stream of pseudo-random draws: `nats` feeds the integer-valued
draws (`random.choice`, `random.randint`, `random.sample`) and `floats` feeds
`random.uniform`.  An exhausted stream keeps yielding `0`. -/
structure Gen where
  nats : List Nat
  floats : List Rat
deriving DecidableEq

/-- Python exceptions that the embedded code can raise. -/
inductive PyErr where
  | typeError
  | indexError
  | valueError
deriving DecidableEq

/-- Take the next integer draw from the oracle. -/
def drawNat (g : Gen) : Nat × Gen :=
  match g.nats with
  | [] => (0, g)
  | n :: rest => (n, { g with nats := rest })

/-- Take the next float draw from the oracle. -/
def drawFloat (g : Gen) : Rat × Gen :=
  match g.floats with
  | [] => (0, g)
  | q :: rest => (q, { g with floats := rest })

/-- Model of `random.random()`: an oracle-chosen value, clamped into the unit
interval so that the model is total over arbitrary oracles. -/
def pyRandom (g : Gen) : Rat × Gen :=
  let p := drawFloat g
  (max 0 (min p.1 1), p.2)

/-- Model of `random.uniform(a, b) = a + (b - a) * random()`. -/
def pyUniform (a b : Rat) (g : Gen) : Rat × Gen :=
  let p := pyRandom g
  (a + (b - a) * p.1, p.2)

/-- Model of `random.choice`: raises `IndexError` on an empty sequence,
otherwise returns the element at an oracle-chosen index. -/
def pyChoice {α : Type} : List α → Gen → Except PyErr (α × Gen)
  | [], _ => .error .indexError
  | x :: xs, g =>
    let p := drawNat g
    .ok ((x :: xs).get ⟨p.1 % (x :: xs).length, Nat.mod_lt _ (Nat.succ_pos _)⟩, p.2)

/-- Model of `random.randint(a, b)`: an oracle-chosen integer in `[a, b]`;
raises `ValueError` on an empty range. -/
def pyRandint (a b : Int) (g : Gen) : Except PyErr (Int × Gen) :=
  if b < a then .error .valueError
  else
    let p := drawNat g
    .ok (a + (p.1 : Int) % (b - a + 1), p.2)

/-- Model of `random.sample(pop, k)`: `k` elements at oracle-chosen distinct
positions.  Every call site in the source guards `k ≤ pop.length`, so the
total fallback for a too-small population is never reached there. -/
def pySample : List Word → Nat → Gen → List Word × Gen
  | _, 0, g => ([], g)
  | [], _ + 1, g => ([], g)
  | x :: xs, k + 1, g =>
    let p := drawNat g
    let i := p.1 % (x :: xs).length
    let chosen := (x :: xs).get ⟨i, Nat.mod_lt _ (Nat.succ_pos _)⟩
    let rest := pySample ((x :: xs).eraseIdx i) k p.2
    (chosen :: rest.1, rest.2)

/-- `string.ascii_lowercase`. -/
def ascii_lowercase : List Char :=
  ['a', 'b', 'c', 'd', 'e', 'f', 'g', 'h', 'i', 'j', 'k', 'l', 'm',
   'n', 'o', 'p', 'q', 'r', 's', 't', 'u', 'v', 'w', 'x', 'y', 'z']

/-- The lower-cased first character of a word (a sentinel blank for the empty
word, which never belongs to any letter bucket). -/
def startLetter (w : Word) : Char := (w.headD ' ').toLower

/-- The `letter_to_words` bucket for letter `c`: nonempty words whose first
character lower-cases to `c` (callers only use `c` from `ascii_lowercase`). -/
def letterBucket (ws : List Word) (c : Char) : List Word :=
  ws.filter fun w => !w.isEmpty && (startLetter w == c)

/-- `letters = sorted(letter_to_words.keys())`: the sorted list of letters of
the alphabet whose bucket is nonempty. -/
def presentLetters (ws : List Word) : List Char :=
  ascii_lowercase.filter fun c => !(letterBucket ws c).isEmpty

/-- `string.ascii_lowercase[i]`. -/
def letterAt (i : Nat) : Char := ascii_lowercase.getD i ' '

/-- `string.ascii_lowercase.index(c)` as an integer. -/
def alphaIndex (c : Char) : Int := (ascii_lowercase.indexOf c : Int)

/-- Lines 29-33 of the source: clamp `min_distance` up to 1, clamp
`max_distance` down to 25, then swap if inverted. -/
def normalizeRange (dr : Int × Int) : Int × Int :=
  let m := max 1 dr.1
  let M := min 25 dr.2
  if M < m then (M, m) else (m, M)

/-- The dynamically-typed `difficulty_range` argument: the annotation asks for
a tuple, but `generate_word_tuples` passes a bare int. -/
inductive PyDiff where
  | int (n : Int)
  | pair (a b : Int)

/-- The `while (new_letter in used_letters or new_letter not in letter_to_words)
and attempts < 26` loop of lines 69-74, with fuel `26 - attempts`. -/
def resampleLoop (ws : List Word) (m M si : Int) (used : List Char) :
    Nat → Char → Nat → Gen → Except PyErr ((Char × Nat) × Gen)
  | 0, letter, attempts, g => .ok ((letter, attempts), g)
  | fuel + 1, letter, attempts, g =>
    if letter ∈ used ∨ letterBucket ws letter = [] then
      match pyRandint m M g with
      | .error e => .error e
      | .ok (d, g1) =>
          resampleLoop ws m M si used fuel (letterAt ((si + d) % 26).toNat)
            (attempts + 1) g1
    else .ok ((letter, attempts), g)

/-- The `for _ in range(tuple_size - 1)` loop of lines 59-83: fill the
remaining slots of one alphabetical tuple, or abort (`none`) on exhaustion. -/
def fillSlots (ws : List Word) (m M si : Int) :
    Nat → List Word → List Char → Gen → Except PyErr (Option (List Word) × Gen)
  | 0, acc, _, g => .ok (some acc, g)
  | slots + 1, acc, used, g =>
    match pyRandint m M g with
    | .error e => .error e
    | .ok (d, g1) =>
      match resampleLoop ws m M si used 26 (letterAt ((si + d) % 26).toNat) 0 g1 with
      | .error e => .error e
      | .ok ((l, attempts), g2) =>
        if 26 ≤ attempts then .ok (none, g2)
        else
          match pyChoice (letterBucket ws l) g2 with
          | .error e => .error e
          | .ok (w, g3) => fillSlots ws m M si slots (acc ++ [w]) (l :: used) g3

/-- One iteration of the `for _ in range(count)` loop of lines 45-90: build one
alphabetical tuple, returning `none` when the partial tuple is discarded. -/
def makeAlphaTuple (ws : List Word) (m M : Int) (tuple_size : Nat) (g : Gen) :
    Except PyErr (Option (List Word) × Gen) :=
  match pyChoice (presentLetters ws) g with
  | .error e => .error e
  | .ok (start_letter, g1) =>
    match pyChoice (letterBucket ws start_letter) g1 with
    | .error e => .error e
    | .ok (first, g2) =>
      match fillSlots ws m M (ascii_lowercase.indexOf start_letter : Int)
          (tuple_size - 1) [first] [start_letter] g2 with
      | .error e => .error e
      | .ok (none, g3) => .ok (none, g3)
      | .ok (some t, g3) =>
        if t.length = tuple_size then .ok (some t, g3) else .ok (none, g3)

/-- The outer `for _ in range(count)` loop of the alphabetical generator. -/
def alphaLoop (ws : List Word) (m M : Int) (tuple_size : Nat) :
    Nat → Gen → Except PyErr (List (List Word) × Gen)
  | 0, g => .ok ([], g)
  | n + 1, g =>
    match makeAlphaTuple ws m M tuple_size g with
    | .error e => .error e
    | .ok (none, g1) => alphaLoop ws m M tuple_size n g1
    | .ok (some t, g1) =>
      match alphaLoop ws m M tuple_size n g1 with
      | .error e => .error e
      | .ok (rest, g2) => .ok (t :: rest, g2)

/-- `generate_alphabetical_order_recall_words` (lines 13-92).  Unpacking the
`difficulty_range` argument raises `TypeError` when an int is passed. -/
def generate_alphabetical_order_recall_words (ws : List Word)
    (difficulty_range : PyDiff) (count tuple_size : Nat) (g : Gen) :
    Except PyErr (List (List Word) × Gen) :=
  match difficulty_range with
  | .int _ => .error .typeError
  | .pair a b =>
    let nr := normalizeRange (a, b)
    alphaLoop ws nr.1 nr.2 tuple_size count g

/-- `word.lower()`. -/
def lowerW (w : Word) : Word := w.map Char.toLower

/-- Python's `w[:n]` slice, including the negative-index convention:
`w[:-k]` drops the last `k` characters (clamped at the empty string). -/
def pySliceTo (w : Word) (n : Int) : Word :=
  if 0 ≤ n then w.take n.toNat else w.take (w.length - n.natAbs)

/-- A Python `set` built by successive `add`s, modelled as a deduplicated
list in first-insertion order. -/
def dedupKeep (l : List Word) : List Word :=
  l.foldl (fun acc x => if x ∈ acc then acc else acc ++ [x]) []

/-- The `prefixes` set of lines 118-121: `word[:diff_position].lower()` for
every word. -/
def stemKeys (ws : List Word) (rank : Int) : List Word :=
  dedupKeep (ws.map fun w => lowerW (pySliceTo w rank))

/-- A Python dict from words to word lists, in key-insertion order. -/
abbrev Buckets := List (Word × List Word)

/-- `d.setdefault(k, []).append(w)`. -/
def addToBucket : Buckets → Word → Word → Buckets
  | [], k, w => [(k, [w])]
  | (k0, l) :: rest, k, w =>
    if k0 = k then (k0, l ++ [w]) :: rest else (k0, l) :: addToBucket rest k w

/-- Dict lookup with `[]` as the silent default (lookups in the source only
happen at existing keys). -/
def bucketOf : Buckets → Word → List Word
  | [], _ => []
  | (k0, l) :: rest, k => if k0 = k then l else bucketOf rest k

/-- `list(d.keys())`. -/
def bucketKeys (m : Buckets) : List Word := m.map Prod.fst

/-- The `prefix_to_words` dict of lines 124-135: a word at least `rank` long
is bucketed under its lower-cased `rank`-character stem; a strictly shorter
word longer than `min_prefix_length` is bucketed under every existing stem key
that it is a prefix of. -/
def prefix_to_words (ws : List Word) (rank min_prefix_length : Int) : Buckets :=
  let ps := stemKeys ws rank
  ws.foldl
    (fun m w =>
      let wl := lowerW w
      if rank ≤ (wl.length : Int) then addToBucket m (pySliceTo wl rank) w
      else if min_prefix_length < (wl.length : Int) then
        ps.foldl (fun m2 p => if wl.isPrefixOf p then addToBucket m2 p w else m2) m
      else m)
    []

/-- The `for _ in range(count)` loop of lines 139-153: pick a key, skip the
iteration if its bucket is smaller than `tuple_size`, otherwise sample a
tuple from the bucket. -/
def sortingLoop (m : Buckets) (tuple_size : Nat) : Nat → Gen → List (List Word) × Gen
  | 0, g => ([], g)
  | n + 1, g =>
    match bucketKeys m with
    | [] => ([], g)
    | k0 :: ks =>
      let p := drawNat g
      let k := (k0 :: ks).get ⟨p.1 % (k0 :: ks).length, Nat.mod_lt _ (Nat.succ_pos _)⟩
      let bucket := bucketOf m k
      if bucket.length < tuple_size then sortingLoop m tuple_size n p.2
      else
        let t := pySample bucket tuple_size p.2
        let rest := sortingLoop m tuple_size n t.2
        (t.1 :: rest.1, rest.2)

/-- `generate_sorting_algorithm_words` (lines 95-155). -/
def generate_sorting_algorithm_words (ws : List Word) (rank : Int)
    (count tuple_size : Nat) (min_prefix_length : Int) (g : Gen) :
    List (List Word) × Gen :=
  if ws.isEmpty then ([], g)
  else sortingLoop (prefix_to_words ws rank min_prefix_length) tuple_size count g

/-- The `for _ in range(count)` loop of `generate_word_tuples` (lines
178-190).  Both alphabetical calls pass the bare int `difficulty1` through as
the `difficulty_range` argument, exactly as the source does. -/
def mixedLoop (ws : List Word) (tuple_size : Nat) (p1 total : Rat) (d1 d2 : Int) :
    Nat → Gen → Except PyErr (List (List Word) × Gen)
  | 0, g => .ok ([], g)
  | n + 1, g =>
    let r := pyUniform 0 total g
    if r.1 < p1 then
      match generate_alphabetical_order_recall_words ws (.int d1) 1 tuple_size r.2 with
      | .error e => .error e
      | .ok (ts, g1) =>
        match mixedLoop ws tuple_size p1 total d1 d2 n g1 with
        | .error e => .error e
        | .ok (rest, g2) => .ok (ts ++ rest, g2)
    else
      let s := generate_sorting_algorithm_words ws d2 1 tuple_size 2 r.2
      if s.1 ≠ [] then
        match mixedLoop ws tuple_size p1 total d1 d2 n s.2 with
        | .error e => .error e
        | .ok (rest, g2) => .ok (s.1 ++ rest, g2)
      else
        match generate_alphabetical_order_recall_words ws (.int d1) 1 tuple_size s.2 with
        | .error e => .error e
        | .ok (ts, g1) =>
          match mixedLoop ws tuple_size p1 total d1 d2 n g1 with
          | .error e => .error e
          | .ok (rest, g2) => .ok (ts ++ rest, g2)

/-- `generate_word_tuples` (lines 158-192). -/
def generate_word_tuples (ws : List Word) (count tuple_size : Nat)
    (probability_goal1 probability_goal2 : Rat) (difficulty1 difficulty2 : Int)
    (g : Gen) : Except PyErr (List (List Word) × Gen) :=
  mixedLoop ws tuple_size probability_goal1
    (probability_goal1 + probability_goal2) difficulty1 difficulty2 count g

/-- The mixed loop with the `r < probability_goal1` branch removed (the draw
is still consumed): every iteration goes to the sorting generator first and
falls back to the alphabetical generator.  Used to express that with
`probability_goal1 = 0` the first branch of `mixedLoop` is dead. -/
def mixedLoopNoGoal1 (ws : List Word) (tuple_size : Nat) (total : Rat) (d1 d2 : Int) :
    Nat → Gen → Except PyErr (List (List Word) × Gen)
  | 0, g => .ok ([], g)
  | n + 1, g =>
    let r := pyUniform 0 total g
    let s := generate_sorting_algorithm_words ws d2 1 tuple_size 2 r.2
    if s.1 ≠ [] then
      match mixedLoopNoGoal1 ws tuple_size total d1 d2 n s.2 with
      | .error e => .error e
      | .ok (rest, g2) => .ok (s.1 ++ rest, g2)
    else
      match generate_alphabetical_order_recall_words ws (.int d1) 1 tuple_size s.2 with
      | .error e => .error e
      | .ok (ts, g1) =>
        match mixedLoopNoGoal1 ws tuple_size total d1 d2 n g1 with
        | .error e => .error e
        | .ok (rest, g2) => .ok (ts ++ rest, g2)

/-- `generate_word_tuples` specialised to always try the sorting generator
first, for comparison with the `probability_goal1 = 0` instance. -/
def generate_word_tuples_no_goal1 (ws : List Word) (count tuple_size : Nat)
    (probability_goal2 : Rat) (difficulty1 difficulty2 : Int) (g : Gen) :
    Except PyErr (List (List Word) × Gen) :=
  mixedLoopNoGoal1 ws tuple_size (0 + probability_goal2) difficulty1 difficulty2 count g

/-! ## Basic facts about the random primitives and the letter index -/

theorem pyChoice_ok_mem {α : Type} {xs : List α} {g : Gen} {x : α} {g' : Gen}
    (h : pyChoice xs g = .ok (x, g')) : x ∈ xs := by
  cases xs with
  | nil => simp [pyChoice] at h
  | cons y ys =>
    simp only [pyChoice, Except.ok.injEq, Prod.mk.injEq] at h
    rw [← h.1]
    exact List.get_mem _ _ _

theorem pyRandint_ok_bounds {a b : Int} {g : Gen} {d : Int} {g' : Gen}
    (h : pyRandint a b g = .ok (d, g')) : a ≤ d ∧ d ≤ b := by
  unfold pyRandint at h
  split at h
  · exact absurd h (by simp)
  · rename_i hba
    simp only [Except.ok.injEq, Prod.mk.injEq] at h
    have h2 : (0 : Int) < b - a + 1 := by omega
    have h3 := Int.emod_nonneg ((drawNat g).1 : Int) (by omega : b - a + 1 ≠ 0)
    have h4 := Int.emod_lt_of_pos ((drawNat g).1 : Int) h2
    omega

theorem mem_letterBucket {ws : List Word} {c : Char} {w : Word}
    (h : w ∈ letterBucket ws c) : startLetter w = c ∧ w ∈ ws := by
  unfold letterBucket at h
  rw [List.mem_filter] at h
  obtain ⟨hw, hcond⟩ := h
  simp only [Bool.and_eq_true, beq_iff_eq] at hcond
  exact ⟨hcond.2, hw⟩

theorem indexOf_letterAt : ∀ i, i < 26 → ascii_lowercase.indexOf (letterAt i) = i := by
  decide

/-- The letter placed in a slot of an alphabetical tuple: it sits at circular
distance `d ∈ [m, M]` ahead of the start index `si`. -/
def distLetter (m M si : Int) (c : Char) : Prop :=
  ∃ d, m ≤ d ∧ d ≤ M ∧ c = letterAt ((si + d) % 26).toNat

theorem resampleLoop_ok {ws : List Word} {m M si : Int} {used : List Char} :
    ∀ fuel letter attempts g l a g',
      resampleLoop ws m M si used fuel letter attempts g = .ok ((l, a), g') →
      (distLetter m M si letter → distLetter m M si l) ∧
      (attempts + fuel = 26 → a < 26 → l ∉ used ∧ letterBucket ws l ≠ []) := by
  intro fuel
  induction fuel with
  | zero =>
    intro letter attempts g l a g' h
    simp only [resampleLoop, Except.ok.injEq, Prod.mk.injEq] at h
    obtain ⟨⟨hl, ha⟩, _⟩ := h
    subst hl; subst ha
    exact ⟨fun hd => hd, fun hsum ha' => absurd hsum (by omega)⟩
  | succ fuel ih =>
    intro letter attempts g l a g' h
    simp only [resampleLoop] at h
    split at h
    · split at h
      · exact absurd h (by simp)
      · rename_i d g1 heq
        have hrec := ih _ _ _ _ _ _ h
        have hd := pyRandint_ok_bounds heq
        refine ⟨fun _ => hrec.1 ⟨d, hd.1, hd.2, rfl⟩, fun hsum ha' => hrec.2 (by omega) ha'⟩
    · rename_i hgood
      simp only [Except.ok.injEq, Prod.mk.injEq] at h
      obtain ⟨⟨hl, _⟩, _⟩ := h
      subst hl
      push_neg at hgood
      exact ⟨fun hd => hd, fun _ _ => hgood⟩

theorem fillSlots_ok {ws : List Word} {m M si : Int} :
    ∀ slots acc used g res g',
      fillSlots ws m M si slots acc used g = .ok (some res, g') →
      (∃ ext, res = acc ++ ext ∧ ∀ w ∈ ext, distLetter m M si (startLetter w)) ∧
      res.length = acc.length + slots := by
  intro slots
  induction slots with
  | zero =>
    intro acc used g res g' h
    simp only [fillSlots, Except.ok.injEq, Prod.mk.injEq, Option.some.injEq] at h
    obtain ⟨hres, _⟩ := h
    subst hres
    exact ⟨⟨[], by simp, by simp⟩, by simp⟩
  | succ slots ih =>
    intro acc used g res g' h
    simp only [fillSlots] at h
    split at h
    · exact absurd h (by simp)
    · rename_i d g1 hrand
      split at h
      · exact absurd h (by simp)
      · rename_i l attempts g2 hloop
        split at h
        · exact absurd h (by simp)
        · split at h
          · exact absurd h (by simp)
          · rename_i w g3 hchoice
            obtain ⟨⟨ext, hres, hext⟩, hlen⟩ := ih _ _ _ _ _ h
            have hw := mem_letterBucket (pyChoice_ok_mem hchoice)
            have hdl : distLetter m M si l := by
              have hd := pyRandint_ok_bounds hrand
              exact (resampleLoop_ok 26 _ 0 _ _ _ _ hloop).1 ⟨d, hd.1, hd.2, rfl⟩
            refine ⟨⟨w :: ext, by simpa using hres, ?_⟩, by simp at hlen; omega⟩
            intro w' hw'
            rcases List.mem_cons.mp hw' with h' | h'
            · subst h'; rw [hw.1]; exact hdl
            · exact hext w' h'

theorem fillSlots_nodup {ws : List Word} {m M si : Int} :
    ∀ slots acc used g res g',
      fillSlots ws m M si slots acc used g = .ok (some res, g') →
      acc.map startLetter = used.reverse → used.Nodup →
      (res.map startLetter).Nodup := by
  intro slots
  induction slots with
  | zero =>
    intro acc used g res g' h hmap hnd
    simp only [fillSlots, Except.ok.injEq, Prod.mk.injEq, Option.some.injEq] at h
    obtain ⟨hres, _⟩ := h
    subst hres
    rw [hmap]
    exact List.nodup_reverse.mpr hnd
  | succ slots ih =>
    intro acc used g res g' h hmap hnd
    simp only [fillSlots] at h
    split at h
    · exact absurd h (by simp)
    · rename_i d g1 hrand
      split at h
      · exact absurd h (by simp)
      · rename_i l attempts g2 hloop
        split at h
        · exact absurd h (by simp)
        · rename_i hatt
          split at h
          · exact absurd h (by simp)
          · rename_i w g3 hchoice
            have hw := mem_letterBucket (pyChoice_ok_mem hchoice)
            have hgood := (resampleLoop_ok 26 _ 0 _ _ _ _ hloop).2 (by omega) (by omega)
            refine ih _ _ _ _ _ h ?_ ?_
            · simp [hmap, hw.1, List.reverse_cons]
            · exact List.nodup_cons.mpr ⟨hgood.1, hnd⟩

theorem makeAlphaTuple_some {ws : List Word} {m M : Int} {ts : Nat} {g : Gen}
    {t : List Word} {g' : Gen}
    (h : makeAlphaTuple ws m M ts g = .ok (some t, g')) :
    t.length = ts ∧ (t.map startLetter).Nodup ∧
    ∃ anchor ext, t = anchor :: ext ∧
      ∀ w ∈ ext, distLetter m M (alphaIndex (startLetter anchor)) (startLetter w) := by
  unfold makeAlphaTuple at h
  split at h
  · exact absurd h (by simp)
  · rename_i start_letter g1 hch1
    split at h
    · exact absurd h (by simp)
    · rename_i first g2 hch2
      split at h
      · exact absurd h (by simp)
      · exact absurd h (by simp)
      · rename_i t0 g3 hfill
        split at h
        · rename_i hlen
          simp only [Except.ok.injEq, Prod.mk.injEq, Option.some.injEq] at h
          obtain ⟨ht0, _⟩ := h
          subst ht0
          have hfirst : startLetter first = start_letter :=
            (mem_letterBucket (pyChoice_ok_mem hch2)).1
          obtain ⟨⟨ext, hext, hdist⟩, _⟩ := fillSlots_ok _ _ _ _ _ _ hfill
          refine ⟨hlen, ?_, first, ext, by simpa using hext, ?_⟩
          · refine fillSlots_nodup _ _ _ _ _ _ hfill ?_ ?_
            · simp [hfirst]
            · simp
          · intro w hw
            have hsi : alphaIndex (startLetter first) =
                ((ascii_lowercase.indexOf start_letter : Nat) : Int) := by
              rw [hfirst]; rfl
            rw [hsi]
            exact hdist w hw
        · exact absurd h (by simp)

theorem alphaLoop_mem {ws : List Word} {m M : Int} {ts : Nat} :
    ∀ n g out g', alphaLoop ws m M ts n g = .ok (out, g') →
      ∀ t ∈ out, ∃ g1 g2, makeAlphaTuple ws m M ts g1 = .ok (some t, g2) := by
  intro n
  induction n with
  | zero =>
    intro g out g' h
    simp only [alphaLoop, Except.ok.injEq, Prod.mk.injEq] at h
    obtain ⟨hout, _⟩ := h
    subst hout
    simp
  | succ n ih =>
    intro g out g' h
    simp only [alphaLoop] at h
    split at h
    · exact absurd h (by simp)
    · exact ih _ _ _ h
    · rename_i t g1 hmk
      split at h
      · exact absurd h (by simp)
      · rename_i rest g2 hrest
        simp only [Except.ok.injEq, Prod.mk.injEq] at h
        obtain ⟨hout, _⟩ := h
        subst hout
        intro t' ht'
        rcases List.mem_cons.mp ht' with h' | h'
        · subst h'; exact ⟨g, g1, hmk⟩
        · exact ih _ _ _ hrest t' h'

theorem alphaLoop_length {ws : List Word} {m M : Int} {ts : Nat} :
    ∀ n g out g', alphaLoop ws m M ts n g = .ok (out, g') → out.length ≤ n := by
  intro n
  induction n with
  | zero =>
    intro g out g' h
    simp only [alphaLoop, Except.ok.injEq, Prod.mk.injEq] at h
    obtain ⟨hout, _⟩ := h
    subst hout
    simp
  | succ n ih =>
    intro g out g' h
    simp only [alphaLoop] at h
    split at h
    · exact absurd h (by simp)
    · exact Nat.le_succ_of_le (ih _ _ _ h)
    · rename_i t g1 hmk
      split at h
      · exact absurd h (by simp)
      · rename_i rest g2 hrest
        simp only [Except.ok.injEq, Prod.mk.injEq] at h
        obtain ⟨hout, _⟩ := h
        subst hout
        simpa using ih _ _ _ hrest

theorem distLetter_idx {m M si : Int} {c : Char} (h : distLetter m M si c)
    (h1 : 1 ≤ m) (h2 : M ≤ 25) :
    m ≤ (alphaIndex c - si) % 26 ∧ (alphaIndex c - si) % 26 ≤ M := by
  obtain ⟨d, hdm, hdM, hc⟩ := h
  have he0 : 0 ≤ (si + d) % 26 := Int.emod_nonneg _ (by norm_num)
  have he26 : (si + d) % 26 < 26 := Int.emod_lt_of_pos _ (by norm_num)
  have htn : ((((si + d) % 26).toNat : Nat) : Int) = (si + d) % 26 :=
    Int.toNat_of_nonneg he0
  have hidx : ascii_lowercase.indexOf (letterAt ((si + d) % 26).toNat)
      = ((si + d) % 26).toNat := indexOf_letterAt _ (by omega)
  subst hc
  unfold alphaIndex
  rw [hidx, htn]
  omega

/-- Claim C4: for every normalized difficulty range `(min, max)` with
`1 ≤ min ≤ max ≤ 25`, every tuple emitted by the alphabetical generator has
the circular distance `(index_other - index_anchor) mod 26` from the anchor
word's starting letter to each other word's starting letter inside
`[min, max]`. -/
theorem claim_C4_anchor_distance (ws : List Word) (a b : Int) (count tuple_size : Nat)
    (g : Gen) (out : List (List Word)) (g' : Gen)
    (hm : 1 ≤ (normalizeRange (a, b)).1) (hM : (normalizeRange (a, b)).2 ≤ 25)
    (h : generate_alphabetical_order_recall_words ws (.pair a b) count tuple_size g
      = .ok (out, g')) :
    ∀ t ∈ out, ∀ anchor ext, t = anchor :: ext → ∀ w ∈ ext,
      (normalizeRange (a, b)).1
          ≤ (alphaIndex (startLetter w) - alphaIndex (startLetter anchor)) % 26 ∧
      (alphaIndex (startLetter w) - alphaIndex (startLetter anchor)) % 26
          ≤ (normalizeRange (a, b)).2 := by
  intro t ht anchor ext hte w hw
  unfold generate_alphabetical_order_recall_words at h
  obtain ⟨g1, g2, hmk⟩ := alphaLoop_mem _ _ _ _ h t ht
  obtain ⟨-, -, anchor', ext', ht', hdist⟩ := makeAlphaTuple_some hmk
  rw [hte] at ht'
  obtain ⟨ha, he⟩ := List.cons_eq_cons.mp ht'
  subst ha
  subst he
  exact distLetter_idx (hdist w hw) hm hM

/-- Claim C4 witness: a concrete emitted pair at distance 1. -/
theorem claim_C4_witness :
    (normalizeRange (1, 1)).1
        ≤ (alphaIndex (startLetter ['b']) - alphaIndex (startLetter ['a'])) % 26 ∧
    (alphaIndex (startLetter ['b']) - alphaIndex (startLetter ['a'])) % 26
        ≤ (normalizeRange (1, 1)).2 :=
  claim_C4_anchor_distance [['a'], ['b']] 1 1 1 2 ⟨[0, 0, 0, 0], []⟩
    [[['a'], ['b']]] ⟨[], []⟩ (by decide) (by decide) (by rfl)
    [['a'], ['b']] (by simp) ['a'] [['b']] rfl ['b'] (by simp)

/-- Claim C6: every tuple emitted by the alphabetical generator has exactly
`tuple_size` words with pairwise distinct lower-cased starting letters; partial
tuples are discarded, so no shorter tuple is ever emitted. -/
theorem claim_C6_tuple_size_distinct_letters (ws : List Word) (dr : PyDiff)
    (count tuple_size : Nat) (g : Gen) (out : List (List Word)) (g' : Gen)
    (h : generate_alphabetical_order_recall_words ws dr count tuple_size g
      = .ok (out, g')) :
    ∀ t ∈ out, t.length = tuple_size ∧ (t.map startLetter).Nodup := by
  intro t ht
  cases dr with
  | int n => exact absurd h (by simp [generate_alphabetical_order_recall_words])
  | pair a b =>
    unfold generate_alphabetical_order_recall_words at h
    obtain ⟨g1, g2, hmk⟩ := alphaLoop_mem _ _ _ _ h t ht
    obtain ⟨hlen, hnd, -⟩ := makeAlphaTuple_some hmk
    exact ⟨hlen, hnd⟩

/-- Claim C6 witness: the concrete emitted tuple has size 2 and distinct
starting letters. -/
theorem claim_C6_witness :
    ([['a'], ['b']] : List Word).length = 2 ∧
    (([['a'], ['b']] : List Word).map startLetter).Nodup :=
  claim_C6_tuple_size_distinct_letters [['a'], ['b']] (.pair 1 1) 1 2
    ⟨[0, 0, 0, 0], []⟩ [[['a'], ['b']]] ⟨[], []⟩ (by rfl) [['a'], ['b']] (by simp)

/-- Claim C9: when the letter-resampling loop exits having used its full 26
attempts, the slot-filling step discards the tuple under construction without
ever checking the letter the 26th resample produced - even when that letter is
suitable (unused and with a nonempty bucket), as the hypotheses here state. -/
theorem claim_C9_exhaustion_discards (ws : List Word) (m M si : Int)
    (slots : Nat) (acc : List Word) (used : List Char) (g : Gen) (d : Int)
    (g1 : Gen) (l : Char) (g2 : Gen)
    (_hunused : l ∉ used) (_hbucket : letterBucket ws l ≠ [])
    (hrand : pyRandint m M g = .ok (d, g1))
    (hloop : resampleLoop ws m M si used 26 (letterAt ((si + d) % 26).toNat) 0 g1
      = .ok ((l, 26), g2)) :
    fillSlots ws m M si (slots + 1) acc used g = .ok (none, g2) := by
  simp only [fillSlots, hrand, hloop]
  simp

/-- Claim C9 witness: a concrete run where the 26th resample lands on the
suitable letter `c`, yet the tuple is discarded (`none`). -/
theorem claim_C9_witness :
    fillSlots [['a'], ['c']] 1 2 0 1 [['a']] ['a']
      ⟨0 :: (List.replicate 25 0 ++ [1]), []⟩ = .ok (none, ⟨[], []⟩) :=
  claim_C9_exhaustion_discards [['a'], ['c']] 1 2 0 0 [['a']] ['a']
    ⟨0 :: (List.replicate 25 0 ++ [1]), []⟩ 1 ⟨List.replicate 25 0 ++ [1], []⟩
    'c' ⟨[], []⟩ (by decide) (by decide) (by rfl) (by rfl)

/-! ## Facts about the prefix-bucket construction of the sorting generator -/

theorem pySample_subset :
    ∀ (k : Nat) (pop : List Word) (g : Gen), ∀ w ∈ (pySample pop k g).1, w ∈ pop := by
  intro k
  induction k with
  | zero => intro pop g w hw; cases pop <;> simp [pySample] at hw
  | succ k ih =>
    intro pop g w hw
    cases pop with
    | nil => simp [pySample] at hw
    | cons x xs =>
      simp only [pySample] at hw
      rcases List.mem_cons.mp hw with h' | h'
      · rw [h']; exact List.get_mem _ _ _
      · exact List.eraseIdx_subset _ _ (ih _ _ _ h')

theorem bucketOf_addToBucket (m : Buckets) (k k' w : Word) :
    bucketOf (addToBucket m k w) k'
      = if k = k' then bucketOf m k' ++ [w] else bucketOf m k' := by
  induction m with
  | nil =>
    by_cases h : k = k' <;> simp [addToBucket, bucketOf, h]
  | cons p rest ih =>
    obtain ⟨k0, l⟩ := p
    by_cases h0 : k0 = k
    · subst h0
      by_cases h1 : k0 = k'
      · subst h1; simp [addToBucket, bucketOf]
      · simp [addToBucket, bucketOf, h1, if_neg h1]
    · by_cases h1 : k0 = k'
      · subst h1
        have hne : ¬k = k0 := fun hk => h0 hk.symm
        simp [addToBucket, bucketOf, h0, hne]
      · simp [addToBucket, bucketOf, h0, h1, ih]

theorem bucketKeys_addToBucket (m : Buckets) (k w : Word) :
    ∀ k' ∈ bucketKeys (addToBucket m k w), k' ∈ bucketKeys m ∨ k' = k := by
  induction m with
  | nil => simp [addToBucket, bucketKeys]
  | cons p rest ih =>
    obtain ⟨k0, l⟩ := p
    intro k' hk'
    by_cases h0 : k0 = k
    · subst h0
      simp only [addToBucket, if_true] at hk'
      simp only [bucketKeys, List.map_cons, List.mem_cons] at hk' ⊢
      exact Or.inl hk'
    · simp only [addToBucket] at hk'
      rw [if_neg h0] at hk'
      simp only [bucketKeys, List.map_cons, List.mem_cons] at hk' ⊢
      rcases hk' with h | h
      · exact Or.inl (Or.inl h)
      · rcases ih k' h with h' | h'
        · exact Or.inl (Or.inr h')
        · exact Or.inr h'

theorem foldl_preserve {α β : Type} (step : β → α → β) (Q : β → Prop) :
    ∀ (l : List α) (m0 : β), (∀ m x, x ∈ l → Q m → Q (step m x)) → Q m0 →
      Q (l.foldl step m0) := by
  intro l
  induction l with
  | nil => intro m0 _ h0; simpa using h0
  | cons x xs ih =>
    intro m0 hstep h0
    simp only [List.foldl_cons]
    exact ih _ (fun m y hy => hstep m y (List.mem_cons_of_mem _ hy))
      (hstep m0 x (List.mem_cons_self _ _) h0)

theorem dedupKeep_subset (l : List Word) : ∀ x ∈ dedupKeep l, x ∈ l := by
  unfold dedupKeep
  apply foldl_preserve (fun acc x => if x ∈ acc then acc else acc ++ [x])
    (fun acc => ∀ x ∈ acc, x ∈ l) l []
  · intro m x hx hm y hy
    by_cases h : x ∈ m
    · rw [if_pos h] at hy; exact hm y hy
    · rw [if_neg h] at hy
      rcases List.mem_append.mp hy with h' | h'
      · exact hm y h'
      · simp only [List.mem_singleton] at h'; subst h'; exact hx
  · simp

theorem stemKeys_mem {ws : List Word} {rank : Int} {k : Word}
    (h : k ∈ stemKeys ws rank) : ∃ u ∈ ws, k = lowerW (pySliceTo u rank) := by
  unfold stemKeys at h
  have h' := dedupKeep_subset _ _ h
  obtain ⟨u, hu, huk⟩ := List.mem_map.mp h'
  exact ⟨u, hu, huk.symm⟩

theorem lowerW_pySliceTo (w : Word) (n : Int) :
    lowerW (pySliceTo w n) = pySliceTo (lowerW w) n := by
  unfold pySliceTo lowerW
  split_ifs
  · rw [List.map_take]
  · rw [List.map_take, List.length_map]

theorem pySliceTo_length_le (w : Word) (n : Int) (hn : 0 ≤ n) :
    (pySliceTo w n).length ≤ n.toNat := by
  unfold pySliceTo
  rw [if_pos hn]
  simp [List.length_take]

theorem pySliceTo_length_eq (w : Word) (n : Int) (hn : 0 ≤ n)
    (hw : n ≤ (w.length : Int)) : (pySliceTo w n).length = n.toNat := by
  unfold pySliceTo
  rw [if_pos hn]
  simp only [List.length_take]
  omega

/-- The membership invariant of `prefix_to_words`: a word sits in bucket `k`
either as a long word (at least `rank` characters, `k` its `rank`-stem) or as
a short stem (shorter than `rank`, longer than `min_prefix_length`, and a
prefix of the existing stem key `k`). -/
def BucketInv (ws : List Word) (rank mpl : Int) (m : Buckets) : Prop :=
  (∀ k, ∀ w ∈ bucketOf m k,
      (rank ≤ ((lowerW w).length : Int) ∧ k = pySliceTo (lowerW w) rank) ∨
      (((lowerW w).length : Int) < rank ∧ mpl < ((lowerW w).length : Int) ∧
        (lowerW w) <+: k ∧ k ∈ stemKeys ws rank)) ∧
  (∀ k ∈ bucketKeys m, ∃ u ∈ ws, k = pySliceTo (lowerW u) rank)

theorem bucketInv_addLong {ws : List Word} {rank mpl : Int} {m : Buckets}
    {w : Word} (hw : w ∈ ws) (hlong : rank ≤ ((lowerW w).length : Int))
    (hinv : BucketInv ws rank mpl m) :
    BucketInv ws rank mpl (addToBucket m (pySliceTo (lowerW w) rank) w) := by
  obtain ⟨h1, h2⟩ := hinv
  constructor
  · intro k w' hw'
    rw [bucketOf_addToBucket] at hw'
    split_ifs at hw' with hk
    · rcases List.mem_append.mp hw' with h' | h'
      · exact h1 k w' h'
      · simp only [List.mem_singleton] at h'
        subst h'
        exact Or.inl ⟨hlong, hk.symm⟩
    · exact h1 k w' hw'
  · intro k hk
    rcases bucketKeys_addToBucket m _ w k hk with h' | h'
    · exact h2 k h'
    · exact ⟨w, hw, h'⟩

theorem bucketInv_addShortFold {ws : List Word} {rank mpl : Int}
    {w : Word} (hw : w ∈ ws) (hshort : ((lowerW w).length : Int) < rank)
    (hmpl : mpl < ((lowerW w).length : Int)) :
    ∀ (ps : List Word) (m : Buckets), (∀ p ∈ ps, p ∈ stemKeys ws rank) →
      BucketInv ws rank mpl m →
      BucketInv ws rank mpl
        (ps.foldl (fun m2 p => if (lowerW w).isPrefixOf p then addToBucket m2 p w else m2) m) := by
  intro ps m hps hinv
  apply foldl_preserve _ (BucketInv ws rank mpl) ps m _ hinv
  intro m' p hp hinv'
  split_ifs with hpre
  · obtain ⟨h1, h2⟩ := hinv'
    constructor
    · intro k w' hw'
      rw [bucketOf_addToBucket] at hw'
      split_ifs at hw' with hk
      · rcases List.mem_append.mp hw' with h' | h'
        · exact h1 k w' h'
        · simp only [List.mem_singleton] at h'
          subst h'
          refine Or.inr ⟨hshort, hmpl, ?_, by rw [← hk]; exact hps p hp⟩
          rw [← hk]
          exact List.isPrefixOf_iff_prefix.mp hpre
      · exact h1 k w' hw'
    · intro k hk
      rcases bucketKeys_addToBucket m' _ w k hk with h' | h'
      · exact h2 k h'
      · obtain ⟨u, hu, huk⟩ := stemKeys_mem (hps p hp)
        refine ⟨u, hu, ?_⟩
        rw [h', huk]
        exact lowerW_pySliceTo u rank
  · exact hinv'

theorem bucketInv_prefix_to_words (ws : List Word) (rank mpl : Int) :
    BucketInv ws rank mpl (prefix_to_words ws rank mpl) := by
  unfold prefix_to_words
  apply foldl_preserve _ (BucketInv ws rank mpl) ws []
  · intro m w hw hinv
    dsimp only
    split_ifs with hlong hshort
    · exact bucketInv_addLong hw hlong hinv
    · exact bucketInv_addShortFold hw (by omega) hshort _ m (fun p hp => hp) hinv
    · exact hinv
  · exact ⟨fun k w' hw' => absurd hw' (by simp [bucketOf]),
      fun k hk => absurd hk (by simp [bucketKeys])⟩

theorem sortingLoop_mem {m : Buckets} {ts : Nat} :
    ∀ n g, ∀ t ∈ (sortingLoop m ts n g).1,
      ∃ k ∈ bucketKeys m, ∀ w ∈ t, w ∈ bucketOf m k := by
  intro n
  induction n with
  | zero => intro g t ht; simp [sortingLoop] at ht
  | succ n ih =>
    intro g t ht
    simp only [sortingLoop] at ht
    split at ht
    · simp at ht
    · rename_i k0 ks hkeys
      split at ht
      · exact ih _ t ht
      · rcases List.mem_cons.mp ht with h' | h'
        · refine ⟨(k0 :: ks).get ⟨(drawNat g).1 % (k0 :: ks).length,
            Nat.mod_lt _ (Nat.succ_pos _)⟩, ?_, ?_⟩
          · rw [hkeys]; exact List.get_mem _ _ _
          · subst h'
            intro w hw
            exact pySample_subset _ _ _ w hw
        · exact ih _ t h'

theorem sortingLoop_length {m : Buckets} {ts : Nat} :
    ∀ n g, (sortingLoop m ts n g).1.length ≤ n := by
  intro n
  induction n with
  | zero => intro g; simp [sortingLoop]
  | succ n ih =>
    intro g
    simp only [sortingLoop]
    split
    · simp
    · split
      · exact Nat.le_succ_of_le (ih _)
      · simpa using ih _

/-- Claim C3 counterexample: with words `abc`, `abcd` and `rank = 5`, a tuple
is emitted (both words are short stems in the bucket keyed `abcd`), but no
common bucket key holding both words has length `rank = 5`; the keys from
which tuples are drawn can be shorter than `rank`. -/
theorem claim_C3_counterexample :
    (generate_sorting_algorithm_words ["abc".toList, "abcd".toList] 5 1 2 2
        ⟨[1, 0, 0], []⟩).1 = [["abc".toList, "abcd".toList]] ∧
    ∀ k ∈ bucketKeys (prefix_to_words ["abc".toList, "abcd".toList] 5 2),
      "abc".toList ∈ bucketOf (prefix_to_words ["abc".toList, "abcd".toList] 5 2) k →
      "abcd".toList ∈ bucketOf (prefix_to_words ["abc".toList, "abcd".toList] 5 2) k →
      k.length ≠ 5 := by
  decide

/-- Claim C3 (amended): for `rank ≥ 1`, every emitted tuple is drawn from a
prefix-bucket key of length at most `rank` (not always exactly `rank`); each
word of the tuple either has lower-cased length at least `rank`, in which case
the key has length exactly `rank` and equals the word's first-`rank`
lower-cased characters, or is a short stem (length strictly between
`min_prefix_length` and `rank`) whose lower-casing is a prefix of the key.
Consequently any two words of the tuple of length at least `rank` share
identical first-`rank` characters case-insensitively, so they first differ at
or after position `rank`. -/
theorem claim_C3_amended (ws : List Word) (rank min_prefix_length : Int)
    (count tuple_size : Nat) (g : Gen) (hrank : 1 ≤ rank) :
    ∀ t ∈ (generate_sorting_algorithm_words ws rank count tuple_size
        min_prefix_length g).1,
      ∃ k ∈ bucketKeys (prefix_to_words ws rank min_prefix_length),
        k.length ≤ rank.toNat ∧
        (∀ w ∈ t, w ∈ bucketOf (prefix_to_words ws rank min_prefix_length) k) ∧
        (∀ w ∈ t,
          (rank ≤ ((lowerW w).length : Int) ∧ k.length = rank.toNat ∧
            pySliceTo (lowerW w) rank = k) ∨
          (((lowerW w).length : Int) < rank ∧
            min_prefix_length < ((lowerW w).length : Int) ∧ (lowerW w) <+: k)) ∧
        (∀ w1 ∈ t, ∀ w2 ∈ t, rank ≤ ((lowerW w1).length : Int) →
          rank ≤ ((lowerW w2).length : Int) →
          pySliceTo (lowerW w1) rank = pySliceTo (lowerW w2) rank) := by
  intro t ht
  unfold generate_sorting_algorithm_words at ht
  split_ifs at ht with hempty
  · simp at ht
  · obtain ⟨k, hkmem, hkall⟩ := sortingLoop_mem _ _ t ht
    obtain ⟨hmem, hkeys⟩ := bucketInv_prefix_to_words ws rank min_prefix_length
    have hklen : k.length ≤ rank.toNat := by
      obtain ⟨u, hu, huk⟩ := hkeys k hkmem
      rw [huk]
      exact pySliceTo_length_le _ _ (by omega)
    refine ⟨k, hkmem, hklen, hkall, ?_, ?_⟩
    · intro w hw
      rcases hmem k w (hkall w hw) with ⟨h1, h2⟩ | ⟨h1, h2, h3, _⟩
      · refine Or.inl ⟨h1, ?_, h2.symm⟩
        rw [h2]
        exact pySliceTo_length_eq _ _ (by omega) h1
      · exact Or.inr ⟨h1, h2, h3⟩
    · intro w1 hw1 w2 hw2 hl1 hl2
      rcases hmem k w1 (hkall w1 hw1) with ⟨_, h2⟩ | ⟨h1, _⟩
      · rcases hmem k w2 (hkall w2 hw2) with ⟨_, h2'⟩ | ⟨h1', _⟩
        · rw [← h2, ← h2']
        · omega
      · omega

/-- Claim C3 (amended) witness: the concrete run of the counterexample input
satisfies the amended guarantee. -/
theorem claim_C3_amended_witness :
    ∃ k ∈ bucketKeys (prefix_to_words ["abc".toList, "abcd".toList] 5 2),
      k.length ≤ (5 : Int).toNat ∧
      (∀ w ∈ ["abc".toList, "abcd".toList],
        w ∈ bucketOf (prefix_to_words ["abc".toList, "abcd".toList] 5 2) k) ∧
      (∀ w ∈ ["abc".toList, "abcd".toList],
        ((5 : Int) ≤ ((lowerW w).length : Int) ∧ k.length = (5 : Int).toNat ∧
          pySliceTo (lowerW w) 5 = k) ∨
        (((lowerW w).length : Int) < 5 ∧ (2 : Int) < ((lowerW w).length : Int) ∧
          (lowerW w) <+: k)) ∧
      (∀ w1 ∈ ["abc".toList, "abcd".toList], ∀ w2 ∈ ["abc".toList, "abcd".toList],
        (5 : Int) ≤ ((lowerW w1).length : Int) →
        (5 : Int) ≤ ((lowerW w2).length : Int) →
        pySliceTo (lowerW w1) 5 = pySliceTo (lowerW w2) 5) :=
  claim_C3_amended ["abc".toList, "abcd".toList] 5 2 1 2 ⟨[1, 0, 0], []⟩
    (by decide) ["abc".toList, "abcd".toList] (by decide)

/-- Claim C7 counterexample: with `rank = -1`, Python's slice `word[:-1]`
drops the last character instead of producing the empty prefix, so the words
`abc` and `xyz` land in two distinct buckets `ab` and `xy`, not one. -/
theorem claim_C7_counterexample :
    pySliceTo "abc".toList (-1) = "ab".toList ∧ "ab".toList ≠ ([] : Word) ∧
    bucketKeys (prefix_to_words ["abc".toList, "xyz".toList] (-1) 2)
      = ["ab".toList, "xy".toList] := by
  decide

theorem foldl_zero_rank (min_prefix_length : Int) (ps : List Word) :
    ∀ (l : List Word) (pre : List Word),
      l.foldl
        (fun m w =>
          let wl := lowerW w
          if (0 : Int) ≤ (wl.length : Int) then addToBucket m (pySliceTo wl 0) w
          else if min_prefix_length < (wl.length : Int) then
            ps.foldl (fun m2 p => if wl.isPrefixOf p then addToBucket m2 p w else m2) m
          else m)
        [([], pre)] = [([], pre ++ l)] := by
  intro l
  induction l with
  | nil => intro pre; simp
  | cons w rest ih =>
    intro pre
    rw [List.foldl_cons]
    have hslice : pySliceTo (lowerW w) 0 = [] := by simp [pySliceTo]
    have hstep :
        (let wl := lowerW w
         if (0 : Int) ≤ (wl.length : Int) then addToBucket [([], pre)] (pySliceTo wl 0) w
         else if min_prefix_length < (wl.length : Int) then
           ps.foldl (fun m2 p => if wl.isPrefixOf p then addToBucket m2 p w else m2) [([], pre)]
         else [([], pre)]) = [([], pre ++ [w])] := by
      dsimp only
      rw [if_pos (by exact_mod_cast Nat.zero_le _ : (0 : Int) ≤ ((lowerW w).length : Int)), hslice]
      simp [addToBucket]
    rw [hstep, ih]
    simp

/-- Claim C7 (amended): for `rank = 0` every word's prefix is the empty
string, so with a nonempty word list all words collapse into the single bucket
keyed by the empty string and output is limited only by `tuple_size` sampling;
for `rank < 0` the computed prefix is instead the word with its last `|rank|`
characters removed, so the words need not collapse into one bucket. -/
theorem claim_C7_amended (ws : List Word) (min_prefix_length : Int)
    (hne : ws ≠ []) :
    (∀ w : Word, pySliceTo w 0 = []) ∧
    prefix_to_words ws 0 min_prefix_length = [([], ws)] := by
  refine ⟨fun w => by simp [pySliceTo], ?_⟩
  cases ws with
  | nil => exact absurd rfl hne
  | cons w rest =>
    unfold prefix_to_words
    dsimp only
    rw [List.foldl_cons]
    have hslice : pySliceTo (lowerW w) 0 = [] := by simp [pySliceTo]
    have hstep :
        (let wl := lowerW w
         if (0 : Int) ≤ (wl.length : Int) then addToBucket [] (pySliceTo wl 0) w
         else if min_prefix_length < (wl.length : Int) then
           (stemKeys (w :: rest) 0).foldl
             (fun m2 p => if wl.isPrefixOf p then addToBucket m2 p w else m2) []
         else []) = [([], [w])] := by
      dsimp only
      rw [if_pos (by exact_mod_cast Nat.zero_le _ : (0 : Int) ≤ ((lowerW w).length : Int)), hslice]
      simp [addToBucket]
    rw [hstep, foldl_zero_rank]
    simp

/-- Claim C7 (amended) witness: a one-word list collapses into the single
empty-prefix bucket. -/
theorem claim_C7_witness :
    prefix_to_words [['a']] 0 2 = [([], [['a']])] :=
  (claim_C7_amended [['a']] 2 (by decide)).2

/-- Claim C5 counterexample: the normalization of `(30, 40)` clamps before
swapping, producing `(25, 30)` whose upper endpoint lies outside `[1, 25]`. -/
theorem claim_C5_counterexample :
    normalizeRange (30, 40) = (25, 30) ∧ ¬((normalizeRange (30, 40)).2 ≤ 25) := by
  decide

/-- Claim C5 (amended): the normalized range always satisfies `min ≤ max`,
and both endpoints lie in `[1, 25]` whenever both input endpoints already lie
in `[1, 25]` (in either order); for inputs outside that band an endpoint of
the range actually used can escape `[1, 25]`. -/
theorem claim_C5_amended (a b : Int) :
    (normalizeRange (a, b)).1 ≤ (normalizeRange (a, b)).2 ∧
    (1 ≤ a → a ≤ 25 → 1 ≤ b → b ≤ 25 →
      1 ≤ (normalizeRange (a, b)).1 ∧ (normalizeRange (a, b)).2 ≤ 25) := by
  unfold normalizeRange
  dsimp only
  split_ifs with h
  · constructor
    · simp only
      omega
    · intro h1 h2 h3 h4
      constructor <;> simp only <;> omega
  · constructor
    · simp only
      omega
    · intro h1 h2 h3 h4
      constructor <;> simp only <;> omega

/-- Claim C5 (amended) witness: the in-band input `(3, 7)` normalizes inside
`[1, 25]` with `min ≤ max`. -/
theorem claim_C5_witness :
    1 ≤ (normalizeRange (3, 7)).1 ∧ (normalizeRange (3, 7)).2 ≤ 25 ∧
    (normalizeRange (3, 7)).1 ≤ (normalizeRange (3, 7)).2 :=
  ⟨((claim_C5_amended 3 7).2 (by decide) (by decide) (by decide) (by decide)).1,
   ((claim_C5_amended 3 7).2 (by decide) (by decide) (by decide) (by decide)).2,
   (claim_C5_amended 3 7).1⟩

/-! ## Output-length bounds and the mixed generator -/

theorem genAlpha_length {ws : List Word} {dr : PyDiff} {count ts : Nat} {g : Gen}
    {out : List (List Word)} {g' : Gen}
    (h : generate_alphabetical_order_recall_words ws dr count ts g = .ok (out, g')) :
    out.length ≤ count := by
  cases dr with
  | int n => exact absurd h (by simp [generate_alphabetical_order_recall_words])
  | pair a b =>
    unfold generate_alphabetical_order_recall_words at h
    exact alphaLoop_length _ _ _ _ h

theorem genSort_length {ws : List Word} {rank : Int} {count ts : Nat}
    {mpl : Int} {g : Gen} :
    (generate_sorting_algorithm_words ws rank count ts mpl g).1.length ≤ count := by
  unfold generate_sorting_algorithm_words
  split_ifs
  · simp
  · exact sortingLoop_length _ _

theorem mixedLoop_length {ws : List Word} {ts : Nat} {p1 total : Rat} {d1 d2 : Int} :
    ∀ n g out g', mixedLoop ws ts p1 total d1 d2 n g = .ok (out, g') →
      out.length ≤ n := by
  intro n
  induction n with
  | zero =>
    intro g out g' h
    simp only [mixedLoop, Except.ok.injEq, Prod.mk.injEq] at h
    obtain ⟨hout, _⟩ := h
    subst hout
    simp
  | succ n ih =>
    intro g out g' h
    simp only [mixedLoop] at h
    split at h
    · split at h
      · exact absurd h (by simp)
      · rename_i ts1 g1 halpha
        split at h
        · exact absurd h (by simp)
        · rename_i rest g2 hrest
          simp only [Except.ok.injEq, Prod.mk.injEq] at h
          obtain ⟨hout, _⟩ := h
          subst hout
          have h1 := genAlpha_length halpha
          have h2 := ih _ _ _ hrest
          simp only [List.length_append]
          omega
    · split at h
      · split at h
        · exact absurd h (by simp)
        · rename_i rest g2 hrest
          simp only [Except.ok.injEq, Prod.mk.injEq] at h
          obtain ⟨hout, _⟩ := h
          subst hout
          have h1 : (generate_sorting_algorithm_words ws d2 1 ts 2
              (pyUniform 0 total g).2).1.length ≤ 1 := genSort_length
          have h2 := ih _ _ _ hrest
          simp only [List.length_append]
          omega
      · split at h
        · exact absurd h (by simp)
        · rename_i ts1 g1 halpha
          split at h
          · exact absurd h (by simp)
          · rename_i rest g2 hrest
            simp only [Except.ok.injEq, Prod.mk.injEq] at h
            obtain ⟨hout, _⟩ := h
            subst hout
            have h1 := genAlpha_length halpha
            have h2 := ih _ _ _ hrest
            simp only [List.length_append]
            omega

/-- Claim C8: for every `count ≥ 0` each of the three generators returns (on
a normal return) a list of length between 0 and `count`. -/
theorem claim_C8_output_length_bounds :
    (∀ (ws : List Word) (dr : PyDiff) (count ts : Nat) (g : Gen)
        (out : List (List Word)) (g' : Gen),
      generate_alphabetical_order_recall_words ws dr count ts g = .ok (out, g') →
      out.length ≤ count) ∧
    (∀ (ws : List Word) (rank : Int) (count ts : Nat) (mpl : Int) (g : Gen),
      (generate_sorting_algorithm_words ws rank count ts mpl g).1.length ≤ count) ∧
    (∀ (ws : List Word) (count ts : Nat) (p1 p2 : Rat) (d1 d2 : Int) (g : Gen)
        (out : List (List Word)) (g' : Gen),
      generate_word_tuples ws count ts p1 p2 d1 d2 g = .ok (out, g') →
      out.length ≤ count) :=
  ⟨fun _ _ _ _ _ _ _ h => genAlpha_length h,
   fun _ _ _ _ _ _ => genSort_length,
   fun _ _ _ _ _ _ _ _ _ _ h => mixedLoop_length _ _ _ _ h⟩

/-- Claim C8 witness: concrete runs of the three generators stay within the
requested count. -/
theorem claim_C8_witness :
    ([[['a'], ['b']]] : List (List Word)).length ≤ 1 ∧
    (generate_sorting_algorithm_words ["ab".toList, "ac".toList] 1 3 2 2
        ⟨[0, 0, 0, 0, 0, 0], []⟩).1.length ≤ 3 ∧
    ([["ab".toList, "ac".toList]] : List (List Word)).length ≤ 1 :=
  ⟨claim_C8_output_length_bounds.1 [['a'], ['b']] (.pair 1 1) 1 2
      ⟨[0, 0, 0, 0], []⟩ [[['a'], ['b']]] ⟨[], []⟩ (by rfl),
   claim_C8_output_length_bounds.2.1 ["ab".toList, "ac".toList] 1 3 2 2
      ⟨[0, 0, 0, 0, 0, 0], []⟩,
   claim_C8_output_length_bounds.2.2 ["ab".toList, "ac".toList] 1 2 0 1 13 1
      ⟨[0, 0, 0], [0]⟩ [["ab".toList, "ac".toList]] ⟨[], []⟩ (by
        have h1 : (pyUniform 0 (0 + 1) (⟨[0, 0, 0], [0]⟩ : Gen)).1 = 0 := by
          unfold pyUniform pyRandom drawFloat
          dsimp only
          norm_num [min_def, max_def]
        unfold generate_word_tuples
        simp only [mixedLoop, h1]
        rw [if_neg (by norm_num : ¬((0 : Rat) < 0))]
        rfl)⟩

theorem mixedLoop_zero_goal1 {ws : List Word} {ts : Nat} {d1 d2 : Int}
    (total : Rat) (htotal : 0 ≤ total) :
    ∀ n g, mixedLoop ws ts 0 total d1 d2 n g = mixedLoopNoGoal1 ws ts total d1 d2 n g := by
  intro n
  induction n with
  | zero => intro g; rfl
  | succ n ih =>
    intro g
    have hr : ¬((pyUniform 0 total g).1 < 0) := by
      unfold pyUniform pyRandom
      dsimp only
      have h1 : (0 : Rat) ≤ max 0 (min (drawFloat g).1 1) := le_max_left _ _
      have h2 : (0 : Rat) ≤ (total - 0) * max 0 (min (drawFloat g).1 1) :=
        mul_nonneg (by linarith) h1
      linarith
    simp only [mixedLoop, mixedLoopNoGoal1, if_neg hr, ih]

/-- Claim C10: with `probability_goal1 = 0` (and a non-negative
`probability_goal2`, including the degenerate `0`, where the draw is exactly
`0`), the condition `r < probability_goal1` never holds, so the mixed
generator behaves exactly like the variant that always invokes the sorting
generator first and uses the alphabetical generator only as fallback. -/
theorem claim_C10_zero_goal1 (ws : List Word) (count tuple_size : Nat)
    (p2 : Rat) (d1 d2 : Int) (g : Gen) (hp2 : 0 ≤ p2) :
    generate_word_tuples ws count tuple_size 0 p2 d1 d2 g
      = generate_word_tuples_no_goal1 ws count tuple_size p2 d1 d2 g := by
  unfold generate_word_tuples generate_word_tuples_no_goal1
  exact mixedLoop_zero_goal1 (0 + p2) (by linarith) count g

/-- Claim C10 witness: a concrete run of both sides agrees (and, separately
computed, both return the sorting generator's tuple). -/
theorem claim_C10_witness :
    generate_word_tuples ["ab".toList, "ac".toList] 1 2 0 1 13 1 ⟨[0, 0, 0], [0]⟩
      = generate_word_tuples_no_goal1 ["ab".toList, "ac".toList] 1 2 1 13 1
          ⟨[0, 0, 0], [0]⟩ :=
  claim_C10_zero_goal1 ["ab".toList, "ac".toList] 1 2 1 13 1 ⟨[0, 0, 0], [0]⟩
    (by norm_num)

/-- Claim C1 (code bug): `generate_word_tuples` passes the bare int
`difficulty1` where `generate_alphabetical_order_recall_words` unpacks a
pair, so whenever the alphabetical branch (or the fallback) runs, the call
raises `TypeError` instead of returning normally with the single-width band
`(difficulty1, difficulty1)`: here the draw `r = 0 < probability_goal1 = 1`
selects the alphabetical branch and the whole call errors. -/
theorem claim_C1_difficulty1_type_error :
    generate_word_tuples [] 1 2 1 0 13 3 ⟨[], [0]⟩ = .error .typeError := by
  have h1 : (pyUniform 0 (1 + 0) (⟨[], [0]⟩ : Gen)).1 = 0 := by
    unfold pyUniform pyRandom drawFloat
    dsimp only
    norm_num [min_def, max_def]
  unfold generate_word_tuples
  simp only [mixedLoop, h1]
  rw [if_pos (by norm_num : (0 : Rat) < 1)]
  rfl

/-- Claim C2 (code bug): with an empty word list and `count = 1`, only the
sorting generator returns the empty list; the alphabetical generator raises
`IndexError` (`random.choice` on the empty letter list) and the mixed
generator raises `TypeError` (via the fallback's int `difficulty_range`). -/
theorem claim_C2_empty_source_crashes :
    generate_alphabetical_order_recall_words [] (.pair 1 1) 1 2 ⟨[], []⟩
        = .error .indexError ∧
    generate_sorting_algorithm_words [] 3 5 2 2 ⟨[], []⟩ = ([], ⟨[], []⟩) ∧
    generate_word_tuples [] 1 2 1 1 13 3 ⟨[], [0]⟩ = .error .typeError := by
  refine ⟨by rfl, by rfl, ?_⟩
  have h1 : (pyUniform 0 (1 + 1) (⟨[], [0]⟩ : Gen)).1 = 0 := by
    unfold pyUniform pyRandom drawFloat
    dsimp only
    norm_num [min_def, max_def]
  unfold generate_word_tuples
  simp only [mixedLoop, h1]
  rw [if_pos (by norm_num : (0 : Rat) < 1)]
  rfl

end LexSort
